import Mathlib

/-!
Shallow embedding of `src/network/rewind_queue.cpp` (the RewindQueue of a
rollback-netcode log) and proofs about its ordering, merge, undo and replay
algorithms.

Modelling conventions:
* A `RewindInfo` carries its kind (state or event), its tick (a C++ `int`,
  modelled as `Int`; no arithmetic in this file can overflow 32 bits), its
  confirmed flag, and an identity tag `rid` used only to observe which
  concrete records the queue touches (which records `undo()` / `rewind()`
  are invoked on, and in what order).
* The main log `m_all_rewind_info` is a `List RewindInfo`; the iterator
  `m_current` is the index of the record it points to, with
  `m_current = m_all_rewind_info.length` playing the role of `end()`.
  A `std::list` insertion keeps other iterators valid, so inserting at
  position `p` turns an iterator at index `c` into index `c + 1` when
  `p ≤ c` and leaves it at `c` otherwise.
* `undo()` and `rewind()` calls are pure observations: the functions return
  the list of `rid` tags of the records they were invoked on, in call order.
* `mergeNetworkData` takes the participant role (`isServer`; the source
  queries a global `NetworkConfig`, with `isClient` its negation) as an
  explicit argument and returns the out-parameters `needs_rewind` and
  `rewind_ticks`; `rewind_ticks` is `none` when the source leaves the
  out-parameter untouched (empty inbox).
-/

inductive RIKind where
  | state
  | event
deriving DecidableEq

/-- A record of the rewind log: `RewindInfoState` / `RewindInfoEvent` from the
source, keeping the data the queue algorithms inspect (kind, ticks,
confirmed) plus an identity tag `rid` for observing calls. -/
structure RewindInfo where
  kind : RIKind
  ticks : Int
  confirmed : Bool
  rid : Nat
deriving DecidableEq

def RewindInfo.isState (r : RewindInfo) : Bool := r.kind == RIKind.state

def RewindInfo.isEvent (r : RewindInfo) : Bool := r.kind == RIKind.event

/-- The queue state: the main log (`m_all_rewind_info`), the cursor
(`m_current`, an index; `length` = `end()`), and the network inbox
(`m_network_events`). -/
structure RewindQueue where
  m_all_rewind_info : List RewindInfo
  m_current : Nat
  m_network_events : List RewindInfo
deriving DecidableEq

/-- The state produced by `reset()` (and hence by the constructor): empty log,
cursor at `end()`, empty inbox. -/
def RewindQueue.init : RewindQueue := ⟨[], 0, []⟩

/-- The break condition of the backward scan in `insertRewindInfo`
(rewind_queue.cpp lines 101-103): stop when the predecessor has a strictly
smaller tick, or has an equal tick and is a state while the new record is an
event. -/
def breakBefore (prev ri : RewindInfo) : Bool :=
  decide (prev.ticks < ri.ticks) ||
    (prev.ticks == ri.ticks && prev.isState && ri.isEvent)

/-- The backward scan of `insertRewindInfo`, expressed on the reversed list
(the source walks an iterator from `end()` toward `begin()`): returns the
index (in the original list) before which the new record is inserted. -/
def insertPosAux (ri : RewindInfo) : List RewindInfo → Nat
  | [] => 0
  | x :: xs => if breakBefore x ri then xs.length + 1 else insertPosAux ri xs

def insertPos (l : List RewindInfo) (ri : RewindInfo) : Nat :=
  insertPosAux ri l.reverse

/-- The effect of `insertRewindInfo` on the main log: insert `ri` at the
position found by the backward scan. -/
def insertList (l : List RewindInfo) (ri : RewindInfo) : List RewindInfo :=
  l.take (insertPos l ri) ++ ri :: l.drop (insertPos l ri)

/-- `RewindQueue::insertRewindInfo` (lines 91-110): insert into the log at the
scanned position; if `m_current` was `end()` it is repointed at the new
element, otherwise it keeps pointing at the same element (so its index grows
by one exactly when the insertion happened at or before it). -/
def insertRewindInfo (q : RewindQueue) (ri : RewindInfo) : RewindQueue :=
  { q with
    m_all_rewind_info := insertList q.m_all_rewind_info ri,
    m_current :=
      if q.m_current = q.m_all_rewind_info.length then
        insertPos q.m_all_rewind_info ri
      else if insertPos q.m_all_rewind_info ri ≤ q.m_current then
        q.m_current + 1
      else q.m_current }

/-- `RewindQueue::addLocalEvent` (lines 118-125). -/
def addLocalEvent (q : RewindQueue) (confirmed : Bool) (ticks : Int) (rid : Nat) :
    RewindQueue :=
  insertRewindInfo q ⟨RIKind.event, ticks, confirmed, rid⟩

/-- `RewindQueue::addLocalState` (lines 138-144). -/
def addLocalState (q : RewindQueue) (confirmed : Bool) (ticks : Int) (rid : Nat) :
    RewindQueue :=
  insertRewindInfo q ⟨RIKind.state, ticks, confirmed, rid⟩

/-- `RewindQueue::addNetworkEvent` (lines 154-163): append to the inbox,
always confirmed. -/
def addNetworkEvent (q : RewindQueue) (ticks : Int) (rid : Nat) : RewindQueue :=
  { q with m_network_events := q.m_network_events ++ [⟨RIKind.event, ticks, true, rid⟩] }

/-- `RewindQueue::addNetworkState` (lines 173-182): append to the inbox,
always confirmed. -/
def addNetworkState (q : RewindQueue) (ticks : Int) (rid : Nat) : RewindQueue :=
  { q with m_network_events := q.m_network_events ++ [⟨RIKind.state, ticks, true, rid⟩] }

/-- The drain loop of `mergeNetworkData` (lines 214-262), one step per inbox
entry, in inbox order. A future-dated entry (`ticks > world_ticks`) is kept in
the inbox; any other entry is removed from the inbox, has its tick rewritten
to `world_ticks` on a server when it is in the past, and is inserted into the
main log; on a client a past entry raises `needs_rewind` and pushes
`rewind_ticks` up to its tick. `q` is the queue with the inbox already
detached; the kept entries are re-attached in their original order. -/
def mergeStep (isServer : Bool) (world_ticks : Int) :
    List RewindInfo → RewindQueue → Bool → Int → RewindQueue × Bool × Int
  | [], q, nr, rt => (q, nr, rt)
  | ri :: rest, q, nr, rt =>
    if world_ticks < ri.ticks then
      let res := mergeStep isServer world_ticks rest q nr rt
      ({ res.1 with m_network_events := ri :: res.1.m_network_events }, res.2)
    else
      let ri2 := if isServer && decide (ri.ticks < world_ticks) then
                   { ri with ticks := world_ticks } else ri
      let q2 := insertRewindInfo q ri2
      if !isServer && decide (ri2.ticks < world_ticks) then
        mergeStep isServer world_ticks rest q2 true
          (if rt < ri2.ticks then ri2.ticks else rt)
      else
        mergeStep isServer world_ticks rest q2 nr rt

/-- `RewindQueue::mergeNetworkData` (lines 195-266). Returns the new queue,
`needs_rewind`, and `rewind_ticks` (`none` when the inbox was empty and the
out-parameter is left untouched; otherwise it was initialised to `-9999`). -/
def mergeNetworkData (isServer : Bool) (world_ticks : Int) (q : RewindQueue) :
    RewindQueue × Bool × Option Int :=
  if q.m_network_events.isEmpty then (q, false, none)
  else
    let res := mergeStep isServer world_ticks q.m_network_events
      { q with m_network_events := [] } false (-9999)
    (res.1, res.2.1, some res.2.2)

/-- `RewindQueue::isEmpty` (lines 269-272). -/
def isEmpty (q : RewindQueue) : Bool :=
  q.m_current == q.m_all_rewind_info.length

/-- `RewindQueue::hasMoreRewindInfo` (lines 277-280). -/
def hasMoreRewindInfo (q : RewindQueue) : Bool :=
  q.m_current != q.m_all_rewind_info.length

/-- Modelled from the spec: `getCurrent` lives in the header
`rewind_queue.hpp`, which is not among the provided sources; per the spec the
Cursor marks the next record not yet executed and `getCurrent()` resolves to
the record at the Cursor. -/
def getCurrent (q : RewindQueue) : Option RewindInfo :=
  q.m_all_rewind_info[q.m_current]?

/-- The index `undoUntil` starts its backward walk from (line 293-294): one
before the cursor, unless the cursor is already at `begin()`. -/
def undoStart (q : RewindQueue) : Nat :=
  if q.m_current ≠ 0 then q.m_current - 1 else q.m_current

/-- The do-while loop of `undoUntil` (lines 296-307), walking index `j`
downward. Each visited record gets `undo()` invoked (recorded in `acc`); the
walk stops with `some (ticks, j)` at the first confirmed state with
`ticks ≤ undo_ticks`, or with `none` after visiting index 0 (stepping an
iterator back from `begin()` lands on `end()` and the loop exits). -/
def undoLoop (undo_ticks : Int) (all : List RewindInfo) :
    Nat → List Nat → Option (Int × Nat) × List Nat
  | 0, acc =>
    match all[0]? with
    | none => (none, acc)
    | some r =>
      if decide (r.ticks ≤ undo_ticks) && r.isState && r.confirmed then
        (some (r.ticks, 0), acc ++ [r.rid])
      else (none, acc ++ [r.rid])
  | j + 1, acc =>
    match all[j + 1]? with
    | none => (none, acc)
    | some r =>
      if decide (r.ticks ≤ undo_ticks) && r.isState && r.confirmed then
        (some (r.ticks, j + 1), acc ++ [r.rid])
      else undoLoop undo_ticks all j (acc ++ [r.rid])

/-- `RewindQueue::undoUntil` (lines 289-313). Returns the new queue, the
returned tick (`-1` in the should-not-happen fall-through, which also logs an
error and leaves the cursor at `end()`), and the `rid` tags of the records
`undo()` was invoked on, in call order. -/
def undoUntil (q : RewindQueue) (undo_ticks : Int) :
    RewindQueue × Int × List Nat :=
  match undoLoop undo_ticks q.m_all_rewind_info (undoStart q) [] with
  | (some (t, j), calls) => ({ q with m_current := j }, t, calls)
  | (none, calls) =>
    ({ q with m_current := q.m_all_rewind_info.length }, -1, calls)

/-- The while loop of `replayAllEvents` (lines 322-329): `l` is the part of
the log from the cursor on, `j` the cursor index. Stops at the first record
whose tick differs from `ticks` (or at `end()`); `rewind()` is invoked on the
events passed over (recorded in `acc`). -/
def replayLoop (ticks : Int) : List RewindInfo → Nat → List Nat → Nat × List Nat
  | [], j, acc => (j, acc)
  | r :: rest, j, acc =>
    if r.ticks == ticks then
      replayLoop ticks rest (j + 1) (if r.isEvent then acc ++ [r.rid] else acc)
    else (j, acc)

/-- `RewindQueue::replayAllEvents` (lines 319-331). Returns the new queue and
the `rid` tags of the events `rewind()` was invoked on, in call order. -/
def replayAllEvents (q : RewindQueue) (ticks : Int) : RewindQueue × List Nat :=
  let res := replayLoop ticks (q.m_all_rewind_info.drop q.m_current) q.m_current []
  ({ q with m_current := res.1 }, res.2)

/-- One externally visible mutation of the queue, for quantifying over every
sequence of insertions. -/
inductive QOp where
  | localEvent (confirmed : Bool) (ticks : Int) (rid : Nat)
  | localState (confirmed : Bool) (ticks : Int) (rid : Nat)
  | netEvent (ticks : Int) (rid : Nat)
  | netState (ticks : Int) (rid : Nat)
  | merge (isServer : Bool) (world_ticks : Int)

def applyOp (q : RewindQueue) : QOp → RewindQueue
  | QOp.localEvent c t i => addLocalEvent q c t i
  | QOp.localState c t i => addLocalState q c t i
  | QOp.netEvent t i => addNetworkEvent q t i
  | QOp.netState t i => addNetworkState q t i
  | QOp.merge s w => (mergeNetworkData s w q).1

def runOps (ops : List QOp) : RewindQueue :=
  ops.foldl applyOp RewindQueue.init

/-- Record `a` may legally sit (anywhere) before record `b` in the main log:
strictly smaller tick, or equal tick and not an event before a state. -/
def recLE (a b : RewindInfo) : Bool :=
  decide (a.ticks < b.ticks) || (a.ticks == b.ticks && !(a.isEvent && b.isState))

/-- The main-log ordering invariant: non-decreasing ticks, and among records
of equal tick every state precedes every event. -/
def logOrdered (l : List RewindInfo) : Prop :=
  l.Pairwise (fun a b => recLE a b = true)

/-- The tick adjustment a server applies to a drained past entry
(lines 228-236). -/
def serverAdjust (world_ticks : Int) (r : RewindInfo) : RewindInfo :=
  if r.ticks < world_ticks then { r with ticks := world_ticks } else r

/-- Folding `insertList` over a batch of records, as the merge drain does. -/
def insertAll (l : List RewindInfo) (rs : List RewindInfo) : List RewindInfo :=
  rs.foldl insertList l

/-! Basic facts about kinds and the ordering relation. -/

theorem isEvent_eq_not_isState (r : RewindInfo) : r.isEvent = !r.isState := by
  cases h : r.kind <;> simp [RewindInfo.isEvent, RewindInfo.isState, h]

theorem break_recLE {x ri : RewindInfo} (h : breakBefore x ri = true) :
    recLE x ri = true := by
  cases hx : x.kind <;> cases hr : ri.kind <;>
    simp [breakBefore, recLE, RewindInfo.isState, RewindInfo.isEvent, hx, hr] at h ⊢ <;>
    omega

theorem cont_recLE {x ri : RewindInfo} (h : breakBefore x ri = false) :
    recLE ri x = true := by
  cases hx : x.kind <;> cases hr : ri.kind <;>
    simp [breakBefore, recLE, RewindInfo.isState, RewindInfo.isEvent, hx, hr] at h ⊢ <;>
    omega

theorem recLE_trans {a b c : RewindInfo} (h1 : recLE a b = true)
    (h2 : recLE b c = true) : recLE a c = true := by
  cases ha : a.kind <;> cases hb : b.kind <;> cases hc : c.kind <;>
    simp [recLE, RewindInfo.isState, RewindInfo.isEvent, ha, hb, hc] at h1 h2 ⊢ <;>
    omega

/-! The backward scan of `insertRewindInfo`, characterised by how it treats a
list extended at its far (scanning) end. -/

theorem insertPos_nil (ri : RewindInfo) : insertPos [] ri = 0 := rfl

theorem insertPos_append (l : List RewindInfo) (a ri : RewindInfo) :
    insertPos (l ++ [a]) ri =
      if breakBefore a ri then l.length + 1 else insertPos l ri := by
  simp only [insertPos, List.reverse_append, List.reverse_cons, List.reverse_nil,
    List.nil_append, List.cons_append, insertPosAux, List.length_reverse]

theorem insertPos_le (l : List RewindInfo) (ri : RewindInfo) :
    insertPos l ri ≤ l.length := by
  induction l using List.reverseRecOn with
  | nil => simp [insertPos_nil]
  | append_singleton l a ih =>
    rw [insertPos_append]
    split
    · simp
    · simp only [List.length_append, List.length_cons, List.length_nil]
      omega

theorem insertList_nil (ri : RewindInfo) : insertList [] ri = [ri] := rfl

theorem insertList_append_break (l : List RewindInfo) (a ri : RewindInfo)
    (h : breakBefore a ri = true) :
    insertList (l ++ [a]) ri = l ++ [a, ri] := by
  unfold insertList
  rw [insertPos_append, if_pos h,
    show l.length + 1 = (l ++ [a]).length by simp,
    List.take_length, List.drop_length]
  simp

theorem insertList_append_cont (l : List RewindInfo) (a ri : RewindInfo)
    (h : breakBefore a ri = false) :
    insertList (l ++ [a]) ri = insertList l ri ++ [a] := by
  have hle := insertPos_le l ri
  unfold insertList
  rw [insertPos_append, if_neg (by simp [h]),
    List.take_append_eq_append_take, List.drop_append_eq_append_drop]
  have h0 : insertPos l ri - l.length = 0 := by omega
  simp [h0]

theorem mem_insertList {l : List RewindInfo} {ri x : RewindInfo}
    (h : x ∈ insertList l ri) : x = ri ∨ x ∈ l := by
  unfold insertList at h
  rcases List.mem_append.1 h with h1 | h1
  · exact Or.inr (List.take_subset _ _ h1)
  · rcases List.mem_cons.1 h1 with h2 | h2
    · exact Or.inl h2
    · exact Or.inr (List.drop_subset _ _ h2)

theorem insertList_length (l : List RewindInfo) (ri : RewindInfo) :
    (insertList l ri).length = l.length + 1 := by
  have hle := insertPos_le l ri
  simp only [insertList, List.length_append, List.length_take, List.length_cons,
    List.length_drop]
  omega

/-- Core ordering preservation: inserting through the backward scan keeps the
main-log invariant. -/
theorem insert_pairwise {l : List RewindInfo} (ri : RewindInfo)
    (h : logOrdered l) : logOrdered (insertList l ri) := by
  induction l using List.reverseRecOn with
  | nil => simp [insertList_nil, logOrdered]
  | append_singleton l a ih =>
    unfold logOrdered at h ⊢
    rw [List.pairwise_append] at h
    obtain ⟨hl, -, hcross⟩ := h
    cases hb : breakBefore a ri
    · rw [insertList_append_cont l a ri hb, List.pairwise_append]
      refine ⟨ih hl, by simp, ?_⟩
      intro x hx b hb2
      simp only [List.mem_singleton] at hb2
      subst hb2
      rcases mem_insertList hx with h1 | h1
      · subst h1; exact cont_recLE hb
      · exact hcross x h1 _ (by simp)
    · rw [insertList_append_break l a ri hb, List.pairwise_append]
      refine ⟨hl, ?_, ?_⟩
      · simp [List.pairwise_cons, break_recLE hb]
      · intro x hx b hb2
        have hxa : recLE x a = true := hcross x hx a (by simp)
        simp only [List.mem_cons, List.mem_singleton, List.not_mem_nil, or_false] at hb2
        rcases hb2 with h1 | h1 <;> subst h1
        · exact hxa
        · exact recLE_trans hxa (break_recLE hb)

theorem insertRewindInfo_log (q : RewindQueue) (ri : RewindInfo) :
    (insertRewindInfo q ri).m_all_rewind_info = insertList q.m_all_rewind_info ri := rfl

theorem insertRewindInfo_inbox (q : RewindQueue) (ri : RewindInfo) :
    (insertRewindInfo q ri).m_network_events = q.m_network_events := rfl

/-! The merge drain, decomposed: what it does to the main log, to the inbox,
and to the two out-parameters. -/

theorem insertAll_cons (l : List RewindInfo) (r : RewindInfo) (rs : List RewindInfo) :
    insertAll l (r :: rs) = insertAll (insertList l r) rs := rfl

theorem insertAll_ordered {l : List RewindInfo} (rs : List RewindInfo)
    (h : logOrdered l) : logOrdered (insertAll l rs) := by
  induction rs generalizing l with
  | nil => exact h
  | cons r rest ih => exact ih (insert_pairwise r h)

theorem mergeStep_cons_skip (s : Bool) (w : Int) (ri : RewindInfo)
    (rest : List RewindInfo) (q : RewindQueue) (nr : Bool) (rt : Int)
    (hw : w < ri.ticks) :
    mergeStep s w (ri :: rest) q nr rt =
      ({ (mergeStep s w rest q nr rt).1 with
          m_network_events := ri :: (mergeStep s w rest q nr rt).1.m_network_events },
        (mergeStep s w rest q nr rt).2) := by
  simp only [mergeStep, if_pos hw]

theorem mergeStep_cons_insert (s : Bool) (w : Int) (ri ri2 : RewindInfo)
    (rest : List RewindInfo) (q : RewindQueue) (nr : Bool) (rt : Int)
    (hw : ¬ w < ri.ticks)
    (h2 : ri2 = if s && decide (ri.ticks < w) then { ri with ticks := w } else ri) :
    mergeStep s w (ri :: rest) q nr rt =
      if !s && decide (ri2.ticks < w) then
        mergeStep s w rest (insertRewindInfo q ri2) true
          (if rt < ri2.ticks then ri2.ticks else rt)
      else
        mergeStep s w rest (insertRewindInfo q ri2) nr rt := by
  subst h2
  simp only [mergeStep, if_neg hw]

theorem mergeStep_log (s : Bool) (w : Int) (pend : List RewindInfo) :
    ∀ (q : RewindQueue) (nr : Bool) (rt : Int),
      (mergeStep s w pend q nr rt).1.m_all_rewind_info =
        insertAll q.m_all_rewind_info
          ((pend.filter (fun r => decide (r.ticks ≤ w))).map
            (fun r => if s && decide (r.ticks < w) then { r with ticks := w } else r)) := by
  induction pend with
  | nil => intro q nr rt; rfl
  | cons ri rest ih =>
    intro q nr rt
    by_cases hw : w < ri.ticks
    · have hf : decide (ri.ticks ≤ w) = false := by simp; omega
      rw [mergeStep_cons_skip s w ri rest q nr rt hw]
      simp only [List.filter_cons, hf, Bool.false_eq_true, if_false]
      exact ih q nr rt
    · have hf : decide (ri.ticks ≤ w) = true := by simp; omega
      set ri2 := if s && decide (ri.ticks < w) then { ri with ticks := w } else ri with hri2
      rw [mergeStep_cons_insert s w ri ri2 rest q nr rt hw hri2]
      simp only [List.filter_cons, hf, if_true, List.map_cons, insertAll_cons]
      rw [← insertRewindInfo_log]
      split
      · exact ih _ _ _
      · exact ih _ _ _

theorem mergeStep_inbox (s : Bool) (w : Int) (pend : List RewindInfo) :
    ∀ (q : RewindQueue) (nr : Bool) (rt : Int),
      (mergeStep s w pend q nr rt).1.m_network_events =
        pend.filter (fun r => decide (w < r.ticks)) ++ q.m_network_events := by
  induction pend with
  | nil => intro q nr rt; rfl
  | cons ri rest ih =>
    intro q nr rt
    by_cases hw : w < ri.ticks
    · have hf : decide (w < ri.ticks) = true := by simp [hw]
      rw [mergeStep_cons_skip s w ri rest q nr rt hw]
      simp only [List.filter_cons, hf, if_true, List.cons_append]
      rw [ih q nr rt]
    · have hf : decide (w < ri.ticks) = false := by simp [hw]
      set ri2 := if s && decide (ri.ticks < w) then { ri with ticks := w } else ri with hri2
      rw [mergeStep_cons_insert s w ri ri2 rest q nr rt hw hri2]
      simp only [List.filter_cons, hf, Bool.false_eq_true, if_false]
      split
      · rw [ih]; rw [insertRewindInfo_inbox]
      · rw [ih]; rw [insertRewindInfo_inbox]

theorem mergeStep_server_flags (w : Int) (pend : List RewindInfo) :
    ∀ (q : RewindQueue) (nr : Bool) (rt : Int),
      (mergeStep true w pend q nr rt).2 = (nr, rt) := by
  induction pend with
  | nil => intro q nr rt; rfl
  | cons ri rest ih =>
    intro q nr rt
    by_cases hw : w < ri.ticks
    · rw [mergeStep_cons_skip true w ri rest q nr rt hw]
      exact ih q nr rt
    · set ri2 := if true && decide (ri.ticks < w) then { ri with ticks := w } else ri with hri2
      rw [mergeStep_cons_insert true w ri ri2 rest q nr rt hw hri2]
      rw [if_neg (by simp)]
      exact ih _ nr rt

theorem max_eq_if (a b : Int) : (if a < b then b else a) = max a b := by
  rcases lt_or_le a b with h | h
  · rw [if_pos h, max_eq_right h.le]
  · rw [if_neg (not_lt.2 h), max_eq_left h]

theorem mergeStep_client_flags (w : Int) (pend : List RewindInfo) :
    ∀ (q : RewindQueue) (nr : Bool) (rt : Int),
      (mergeStep false w pend q nr rt).2.1 =
        (nr || pend.any (fun r => decide (r.ticks < w))) ∧
      (mergeStep false w pend q nr rt).2.2 =
        List.foldl max rt
          ((pend.filter (fun r => decide (r.ticks < w))).map RewindInfo.ticks) := by
  induction pend with
  | nil => intro q nr rt; simp [mergeStep]
  | cons ri rest ih =>
    intro q nr rt
    by_cases hw : w < ri.ticks
    · have hf : decide (ri.ticks < w) = false := by simp; omega
      rw [mergeStep_cons_skip false w ri rest q nr rt hw]
      obtain ⟨ih1, ih2⟩ := ih q nr rt
      constructor
      · rw [show ({ (mergeStep false w rest q nr rt).1 with
            m_network_events := ri :: (mergeStep false w rest q nr rt).1.m_network_events },
            (mergeStep false w rest q nr rt).2).2.1 = (mergeStep false w rest q nr rt).2.1
            from rfl, ih1]
        simp [List.any_cons, hf]
      · rw [show ({ (mergeStep false w rest q nr rt).1 with
            m_network_events := ri :: (mergeStep false w rest q nr rt).1.m_network_events },
            (mergeStep false w rest q nr rt).2).2.2 = (mergeStep false w rest q nr rt).2.2
            from rfl, ih2]
        simp only [List.filter_cons, hf, Bool.false_eq_true, if_false]
    · rw [mergeStep_cons_insert false w ri ri rest q nr rt hw (by simp)]
      by_cases hlt : ri.ticks < w
      · have hf : decide (ri.ticks < w) = true := by simp [hlt]
        rw [if_pos (by simp [hf])]
        obtain ⟨ih1, ih2⟩ :=
          ih (insertRewindInfo q ri) true (if rt < ri.ticks then ri.ticks else rt)
        constructor
        · rw [ih1]; simp [List.any_cons, hf]
        · rw [ih2, max_eq_if]
          simp only [List.filter_cons, hf, if_true, List.map_cons, List.foldl_cons]
      · have hf : decide (ri.ticks < w) = false := by simp [hlt]
        rw [if_neg (by simp [hf])]
        obtain ⟨ih1, ih2⟩ := ih (insertRewindInfo q ri) nr rt
        constructor
        · rw [ih1]; simp [List.any_cons, hf]
        · rw [ih2]
          simp only [List.filter_cons, hf, Bool.false_eq_true, if_false]

/-! The backward undo walk and the forward replay walk. -/

theorem undoLoop_stop (u : Int) (all : List RewindInfo) (j : Nat) (acc : List Nat)
    (r : RewindInfo) (hr : all[j]? = some r)
    (hq : (decide (r.ticks ≤ u) && r.isState && r.confirmed) = true) :
    undoLoop u all j acc = (some (r.ticks, j), acc ++ [r.rid]) := by
  cases j <;> simp only [undoLoop, hr, hq, if_true]

theorem undoLoop_succ_cont (u : Int) (all : List RewindInfo) (j : Nat) (acc : List Nat)
    (r : RewindInfo) (hr : all[j + 1]? = some r)
    (hf : (decide (r.ticks ≤ u) && r.isState && r.confirmed) = false) :
    undoLoop u all (j + 1) acc = undoLoop u all j (acc ++ [r.rid]) := by
  simp only [undoLoop, hr, hf, Bool.false_eq_true, if_false]

theorem undoLoop_zero_cont (u : Int) (all : List RewindInfo) (acc : List Nat)
    (r : RewindInfo) (hr : all[0]? = some r)
    (hf : (decide (r.ticks ≤ u) && r.isState && r.confirmed) = false) :
    undoLoop u all 0 acc = (none, acc ++ [r.rid]) := by
  simp only [undoLoop, hr, hf, Bool.false_eq_true, if_false]

/-- Walking backward from index `j + d`, when the first qualifying confirmed
state below the start is at index `j`, the loop stops there, having invoked
`undo()` on exactly the records from `j + d` down to `j`. -/
theorem undoLoop_finds (u : Int) (all : List RewindInfo) (j : Nat) (r : RewindInfo)
    (hr : all[j]? = some r)
    (hq : (decide (r.ticks ≤ u) && r.isState && r.confirmed) = true) :
    ∀ (d : Nat) (acc : List Nat), j + d < all.length →
      (∀ k, j < k → k ≤ j + d → ∀ s, all[k]? = some s →
        (decide (s.ticks ≤ u) && s.isState && s.confirmed) = false) →
      undoLoop u all (j + d) acc =
        (some (r.ticks, j),
          acc ++ ((all.drop j).take (d + 1)).reverse.map RewindInfo.rid) := by
  intro d
  induction d with
  | zero =>
    intro acc hlen hnone
    have hj : j < all.length := by omega
    have hget : all[j] = r := by
      rw [List.getElem?_eq_getElem hj] at hr
      exact Option.some.inj hr
    have hdrop : all.drop j = r :: all.drop (j + 1) := by
      rw [List.drop_eq_getElem_cons hj, hget]
    rw [show j + 0 = j from rfl, undoLoop_stop u all j acc r hr hq, hdrop]
    simp
  | succ d ih =>
    intro acc hlen hnone
    have hlt2 : j + d + 1 < all.length := by omega
    obtain ⟨s, hs⟩ : ∃ s, all[j + d + 1]? = some s :=
      ⟨all[j + d + 1], List.getElem?_eq_getElem hlt2⟩
    have hsf : (decide (s.ticks ≤ u) && s.isState && s.confirmed) = false :=
      hnone (j + d + 1) (by omega) (by omega) s hs
    have hstep : undoLoop u all (j + (d + 1)) acc =
        undoLoop u all (j + d) (acc ++ [s.rid]) := by
      rw [show j + (d + 1) = (j + d) + 1 by omega]
      exact undoLoop_succ_cont u all (j + d) acc s hs hsf
    have ihx := ih (acc ++ [s.rid]) (by omega)
      (fun k hk1 hk2 t ht => hnone k hk1 (by omega) t ht)
    rw [hstep, ihx]
    have htake : (all.drop j).take (d + 1 + 1) = (all.drop j).take (d + 1) ++ [s] := by
      rw [List.take_succ]
      congr 1
      rw [List.getElem?_drop, show j + (d + 1) = j + d + 1 by omega, hs]
      rfl
    rw [htake]
    simp

/-- Walking backward from index `i` with no qualifying confirmed state at or
below it, the loop falls through after invoking `undo()` on all records from
`i` down to `0`. -/
theorem undoLoop_misses (u : Int) (all : List RewindInfo) :
    ∀ (i : Nat) (acc : List Nat), i < all.length →
      (∀ k, k ≤ i → ∀ s, all[k]? = some s →
        (decide (s.ticks ≤ u) && s.isState && s.confirmed) = false) →
      undoLoop u all i acc =
        (none, acc ++ (all.take (i + 1)).reverse.map RewindInfo.rid) := by
  intro i
  induction i with
  | zero =>
    intro acc hlen hnone
    obtain ⟨s, hs⟩ : ∃ s, all[0]? = some s := ⟨all[0], List.getElem?_eq_getElem hlen⟩
    have hsf := hnone 0 (le_refl 0) s hs
    rw [undoLoop_zero_cont u all acc s hs hsf]
    have h1 : all.take 1 = [s] := by
      rw [show (1 : Nat) = 0 + 1 from rfl, List.take_succ, hs]
      rfl
    rw [h1]
    simp
  | succ i ih =>
    intro acc hlen hnone
    obtain ⟨s, hs⟩ : ∃ s, all[i + 1]? = some s :=
      ⟨all[i + 1], List.getElem?_eq_getElem hlen⟩
    have hsf := hnone (i + 1) (le_refl _) s hs
    rw [undoLoop_succ_cont u all i acc s hs hsf,
      ih (acc ++ [s.rid]) (by omega) (fun k hk t ht => hnone k (by omega) t ht)]
    have htake : all.take (i + 1 + 1) = all.take (i + 1) ++ [s] := by
      rw [List.take_succ, hs]
      rfl
    rw [htake]
    simp

/-- The forward replay walk, characterised with `takeWhile`: the cursor moves
past the records whose tick equals the replayed tick, and `rewind()` is
invoked on exactly the events among them, in order. -/
theorem replayLoop_spec (t : Int) (l : List RewindInfo) :
    ∀ (j : Nat) (acc : List Nat),
      replayLoop t l j acc =
        (j + (l.takeWhile (fun r => r.ticks == t)).length,
          acc ++ ((l.takeWhile (fun r => r.ticks == t)).filter RewindInfo.isEvent).map
            RewindInfo.rid) := by
  induction l with
  | nil => intro j acc; simp [replayLoop]
  | cons r rest ih =>
    intro j acc
    cases hrt : (r.ticks == t)
    · simp [replayLoop, hrt, List.takeWhile_cons]
    · simp only [replayLoop, hrt, if_true]
      rw [ih]
      cases hev : r.isEvent <;>
        simp [List.takeWhile_cons, hrt, List.filter_cons, hev] <;> omega

/-! Inserting a second record that the scan cannot distinguish from the first
(equal tick, equal kind) lands at exactly the same position. -/

theorem insertPos_insertList (l : List RewindInfo) (r1 r2 : RewindInfo)
    (hbk : ∀ x, breakBefore x r2 = breakBefore x r1)
    (h12 : breakBefore r1 r2 = false) :
    insertPos (insertList l r1) r2 = insertPos l r1 := by
  induction l using List.reverseRecOn with
  | nil =>
    rw [insertList_nil, show [r1] = ([] : List RewindInfo) ++ [r1] from rfl,
      insertPos_append, h12]
    simp [insertPos_nil]
  | append_singleton l a ih =>
    cases hb : breakBefore a r1
    · rw [insertList_append_cont l a r1 hb, insertPos_append, hbk a, hb]
      simp only [Bool.false_eq_true, if_false]
      rw [ih, insertPos_append, hb]
      simp only [Bool.false_eq_true, if_false]
    · rw [insertList_append_break l a r1 hb,
        show l ++ [a, r1] = (l ++ [a]) ++ [r1] by simp,
        insertPos_append, h12]
      simp only [Bool.false_eq_true, if_false]
      rw [insertPos_append, insertPos_append, hbk a, hb]
      simp

/-- C1: for every sequence of insertions into the Main Log, via
addLocalEvent/addLocalState or via mergeNetworkData (network records entering
through addNetworkEvent/addNetworkState and drained by the merge), after each
insertion the log is non-decreasing by tick, and among records sharing a tick
every state precedes every event. -/
theorem mainLog_ordered_after_every_insertion (ops : List QOp) :
    logOrdered (runOps ops).m_all_rewind_info := by
  have happly : ∀ (q : RewindQueue) (op : QOp), logOrdered q.m_all_rewind_info →
      logOrdered (applyOp q op).m_all_rewind_info := by
    intro q op h
    cases op with
    | localEvent c t i => exact insert_pairwise _ h
    | localState c t i => exact insert_pairwise _ h
    | netEvent t i => exact h
    | netState t i => exact h
    | merge s w =>
      show logOrdered (mergeNetworkData s w q).1.m_all_rewind_info
      unfold mergeNetworkData
      split
      · exact h
      · rw [mergeStep_log]
        exact insertAll_ordered _ h
  have hrun : ∀ (l : List QOp) (q : RewindQueue), logOrdered q.m_all_rewind_info →
      logOrdered (l.foldl applyOp q).m_all_rewind_info := by
    intro l
    induction l with
    | nil => intro q h; exact h
    | cons op rest ih => intro q h; exact ih _ (happly q op h)
  exact hrun ops RewindQueue.init (by simp [RewindQueue.init, logOrdered])

/-- C2 counterexample: two States inserted at the same tick do NOT stay in
insertion order (the first-inserted one ends up second), and likewise two
Events at the same tick; this refutes the claimed stability at the concrete
input of an empty queue receiving records with rid 0 then rid 1 at tick 0. -/
theorem equal_tick_equal_kind_not_insertion_ordered :
    ¬ (List.map RewindInfo.rid
        (addLocalState (addLocalState RewindQueue.init true 0 0) true 0 1).m_all_rewind_info
        = [0, 1]) ∧
    ¬ (List.map RewindInfo.rid
        (addLocalEvent (addLocalEvent RewindQueue.init true 0 0) true 0 1).m_all_rewind_info
        = [0, 1]) := by
  constructor <;> decide

/-- C2 amended: insertion at an equal tick with an equal kind is
last-in-first-out, not stable: the backward scan passes over every record the
new one ties with, so the second-inserted record lands immediately BEFORE the
first-inserted one (which itself sits at the position the first insertion
chose). -/
theorem equal_tick_equal_kind_insert_lifo (l : List RewindInfo) (r1 r2 : RewindInfo)
    (ht : r2.ticks = r1.ticks) (hk : r2.kind = r1.kind) :
    insertList (insertList l r1) r2 =
      l.take (insertPos l r1) ++ r2 :: r1 :: l.drop (insertPos l r1) := by
  have hbk : ∀ x, breakBefore x r2 = breakBefore x r1 := by
    intro x
    simp [breakBefore, ht, hk, RewindInfo.isEvent]
  have h12 : breakBefore r1 r2 = false := by
    cases hx : r1.kind <;>
      simp [breakBefore, ht, hk, hx, RewindInfo.isState, RewindInfo.isEvent]
  have hpos : insertPos (insertList l r1) r2 = insertPos l r1 :=
    insertPos_insertList l r1 r2 hbk h12
  have hple := insertPos_le l r1
  have hlen : (l.take (insertPos l r1)).length = insertPos l r1 := by
    rw [List.length_take]
    omega
  rw [show insertList (insertList l r1) r2 =
      (insertList l r1).take (insertPos (insertList l r1) r2) ++ r2 ::
        (insertList l r1).drop (insertPos (insertList l r1) r2) from rfl,
    hpos,
    show insertList l r1 =
      l.take (insertPos l r1) ++ r1 :: l.drop (insertPos l r1) from rfl,
    List.take_left' hlen, List.drop_left' hlen]

/-- C2 amended witness: at the concrete input of an empty log and two states
at tick 0, the second-inserted state lands directly before the first. -/
theorem equal_tick_equal_kind_insert_lifo_witness :
    insertList (insertList ([] : List RewindInfo)
        { kind := RIKind.state, ticks := 0, confirmed := true, rid := 0 })
        { kind := RIKind.state, ticks := 0, confirmed := true, rid := 1 } =
      ([] : List RewindInfo).take (insertPos ([] : List RewindInfo)
          { kind := RIKind.state, ticks := 0, confirmed := true, rid := 0 }) ++
        { kind := RIKind.state, ticks := 0, confirmed := true, rid := 1 } ::
        { kind := RIKind.state, ticks := 0, confirmed := true, rid := 0 } ::
        ([] : List RewindInfo).drop (insertPos ([] : List RewindInfo)
          { kind := RIKind.state, ticks := 0, confirmed := true, rid := 0 }) :=
  equal_tick_equal_kind_insert_lifo [] _ _ rfl rfl

/-- C3: on a non-empty log whose backward walk from the cursor reaches a
confirmed state with tick at most `u`, `undoUntil u` invokes `undo()` on every
record it visits walking backward (the stopping state included), stops at the
first such confirmed state (the one with the greatest index not beyond the
walk's start), repoints the cursor at it, and returns its tick. -/
theorem undoUntil_stops_at_latest_confirmed_state (q : RewindQueue) (u : Int)
    (j : Nat) (r : RewindInfo)
    (hne : q.m_all_rewind_info ≠ [])
    (hcur : q.m_current ≤ q.m_all_rewind_info.length)
    (hj : j ≤ undoStart q)
    (hr : q.m_all_rewind_info[j]? = some r)
    (hq : (decide (r.ticks ≤ u) && r.isState && r.confirmed) = true)
    (hmax : ∀ k, j < k → k ≤ undoStart q → ∀ s, q.m_all_rewind_info[k]? = some s →
      (decide (s.ticks ≤ u) && s.isState && s.confirmed) = false) :
    undoUntil q u =
      ({ q with m_current := j }, r.ticks,
        ((q.m_all_rewind_info.drop j).take (undoStart q - j + 1)).reverse.map
          RewindInfo.rid) := by
  have hlen : 0 < q.m_all_rewind_info.length := List.length_pos.2 hne
  have hstart : undoStart q < q.m_all_rewind_info.length := by
    unfold undoStart
    split <;> omega
  have hd : j + (undoStart q - j) = undoStart q := by omega
  have hloop := undoLoop_finds u q.m_all_rewind_info j r hr hq (undoStart q - j) []
    (by omega) (fun k hk1 hk2 s hs => hmax k hk1 (by omega) s hs)
  rw [hd] at hloop
  unfold undoUntil
  rw [hloop]
  simp

def qW : RewindQueue :=
  ⟨[{ kind := RIKind.state, ticks := 0, confirmed := true, rid := 0 },
    { kind := RIKind.event, ticks := 1, confirmed := true, rid := 1 },
    { kind := RIKind.event, ticks := 2, confirmed := true, rid := 2 }], 3, []⟩

/-- C3 witness: the spec scenario of a confirmed state at tick 0 followed by
events, with the cursor at end-of-log; `undoUntil 5` undoes every record after
tick 0 (and the state itself) and returns 0 with the cursor on the state. -/
theorem undoUntil_stops_at_latest_confirmed_state_witness :
    undoUntil qW 5 =
      ({ qW with m_current := 0 }, (0 : Int),
        ((qW.m_all_rewind_info.drop 0).take (undoStart qW - 0 + 1)).reverse.map
          RewindInfo.rid) :=
  undoUntil_stops_at_latest_confirmed_state qW 5 0
    { kind := RIKind.state, ticks := 0, confirmed := true, rid := 0 }
    (by decide) (by decide) (by decide) rfl (by decide)
    (by
      intro k hk1 hk2 s hs
      have hk2b : k ≤ 2 := hk2
      interval_cases k
      · rw [show qW.m_all_rewind_info[1]? =
            some { kind := RIKind.event, ticks := 1, confirmed := true, rid := 1 }
            from rfl] at hs
        injection hs with h2
        subst h2
        decide
      · rw [show qW.m_all_rewind_info[2]? =
            some { kind := RIKind.event, ticks := 2, confirmed := true, rid := 2 }
            from rfl] at hs
        injection hs with h2
        subst h2
        decide)

/-- C9 counterexample: on a log holding only an event (no confirmed state),
`undoUntil 5` does not fail; it returns the sentinel value `-1` (the source
also logs an error and leaves the cursor at `end()`), refuting the claim that
the operation signals an assertion-style failure rather than returning a
sentinel. -/
theorem undoUntil_no_state_returns_sentinel_cex :
    (undoUntil ⟨[{ kind := RIKind.event, ticks := 0, confirmed := true, rid := 0 }],
        0, []⟩ 5).2.1 = -1 ∧
    (undoUntil ⟨[{ kind := RIKind.event, ticks := 0, confirmed := true, rid := 0 }],
        0, []⟩ 5).1.m_current = 1 := by
  constructor <;> rfl

/-- C9 amended: when the backward walk reaches the start of the log without
finding a confirmed state with tick at most `u`, `undoUntil` logs an error and
returns the sentinel `-1`, leaving the cursor at end-of-log, after invoking
`undo()` on every record it visited. -/
theorem undoUntil_missing_state_returns_sentinel (q : RewindQueue) (u : Int)
    (hne : q.m_all_rewind_info ≠ [])
    (hcur : q.m_current ≤ q.m_all_rewind_info.length)
    (hall : ∀ k, k ≤ undoStart q → ∀ s, q.m_all_rewind_info[k]? = some s →
      (decide (s.ticks ≤ u) && s.isState && s.confirmed) = false) :
    undoUntil q u =
      ({ q with m_current := q.m_all_rewind_info.length }, -1,
        (q.m_all_rewind_info.take (undoStart q + 1)).reverse.map RewindInfo.rid) := by
  have hlen : 0 < q.m_all_rewind_info.length := List.length_pos.2 hne
  have hstart : undoStart q < q.m_all_rewind_info.length := by
    unfold undoStart
    split <;> omega
  have hloop := undoLoop_misses u q.m_all_rewind_info (undoStart q) [] hstart
    (fun k hk s hs => hall k hk s hs)
  unfold undoUntil
  rw [hloop]
  simp

def qE9 : RewindQueue :=
  ⟨[{ kind := RIKind.event, ticks := 0, confirmed := true, rid := 0 }], 1, []⟩

/-- C9 amended witness: a log holding only an event, cursor at end-of-log. -/
theorem undoUntil_missing_state_returns_sentinel_witness :
    undoUntil qE9 5 =
      ({ qE9 with m_current := qE9.m_all_rewind_info.length }, -1,
        (qE9.m_all_rewind_info.take (undoStart qE9 + 1)).reverse.map RewindInfo.rid) :=
  undoUntil_missing_state_returns_sentinel qE9 5 (by decide) (by decide)
    (by
      intro k hk s hs
      have hk0 : k ≤ 0 := hk
      have hkz : k = 0 := by omega
      subst hkz
      rw [show qE9.m_all_rewind_info[0]? =
          some { kind := RIKind.event, ticks := 0, confirmed := true, rid := 0 }
          from rfl] at hs
      injection hs with h2
      subst h2
      decide)

/-- C4 counterexample: on a client, a past entry whose tick lies below the
`-9999` initialisation of the running maximum makes `mergeNetworkData` report
`rewind_ticks = -9999` instead of the maximum past tick `-10000`, while still
setting `needs_rewind`; this refutes the claim at the concrete input of an
inbox holding one event at tick `-10000` with `world_ticks = 0`. -/
theorem client_rewind_ticks_sentinel_cex :
    (mergeNetworkData false 0 (addNetworkEvent RewindQueue.init (-10000) 0)).2.1 = true ∧
    ¬ ((mergeNetworkData false 0 (addNetworkEvent RewindQueue.init (-10000) 0)).2.2 =
        some (-10000)) := by
  constructor <;> decide

/-- C4 amended: on a client, if some drained entry is in the past
(tick < world_ticks), `needs_rewind` is true and `rewind_ticks` is the maximum
of `-9999` (its initialisation) and the ticks of the past entries; if no
drained entry is in the past, `needs_rewind` is false. -/
theorem mergeNetworkData_client_rewind_flags (q : RewindQueue) (w : Int) :
    ((q.m_network_events.filter (fun r => decide (r.ticks < w))) ≠ [] →
      (mergeNetworkData false w q).2.1 = true ∧
      (mergeNetworkData false w q).2.2 =
        some (List.foldl max (-9999)
          ((q.m_network_events.filter (fun r => decide (r.ticks < w))).map
            RewindInfo.ticks))) ∧
    ((q.m_network_events.filter (fun r => decide (r.ticks < w))) = [] →
      (mergeNetworkData false w q).2.1 = false) := by
  unfold mergeNetworkData
  by_cases hnil : q.m_network_events = []
  · rw [if_pos (by simp [hnil])]
    constructor
    · intro hne
      rw [hnil] at hne
      simp at hne
    · intro h0
      rfl
  · rw [if_neg (by simp [hnil])]
    obtain ⟨h1, h2⟩ := mergeStep_client_flags w q.m_network_events
      { q with m_network_events := [] } false (-9999)
    constructor
    · intro hne
      constructor
      · show (mergeStep false w q.m_network_events
            { q with m_network_events := [] } false (-9999)).2.1 = true
        rw [h1]
        obtain ⟨x, hx⟩ := List.exists_mem_of_ne_nil _ hne
        obtain ⟨hx1, hx2⟩ := List.mem_filter.1 hx
        simp only [Bool.false_or]
        exact List.any_eq_true.2 ⟨x, hx1, hx2⟩
      · show some (mergeStep false w q.m_network_events
            { q with m_network_events := [] } false (-9999)).2.2 =
          some (List.foldl max (-9999)
            ((q.m_network_events.filter (fun r => decide (r.ticks < w))).map
              RewindInfo.ticks))
        rw [h2]
    · intro hfil
      show (mergeStep false w q.m_network_events
          { q with m_network_events := [] } false (-9999)).2.1 = false
      rw [h1]
      simp only [Bool.false_or, List.any_eq_false]
      intro x hx
      have hnp := List.filter_eq_nil_iff.1 hfil x hx
      simpa using hnp

def qc4w : RewindQueue :=
  ⟨[], 0, [{ kind := RIKind.event, ticks := 3, confirmed := true, rid := 0 },
           { kind := RIKind.event, ticks := 7, confirmed := true, rid := 1 }]⟩

/-- C4 amended witness: the spec example, inbox entries at ticks 3 and 7 with
`world_ticks = 10` on a client. -/
theorem mergeNetworkData_client_rewind_flags_witness :
    (mergeNetworkData false 10 qc4w).2.1 = true ∧
    (mergeNetworkData false 10 qc4w).2.2 =
      some (List.foldl max (-9999)
        ((qc4w.m_network_events.filter (fun r => decide (r.ticks < 10))).map
          RewindInfo.ticks)) :=
  (mergeNetworkData_client_rewind_flags qc4w 10).1 (by decide)

/-- C5: on a server, `mergeNetworkData` never requests a rewind, and the main
log it produces is the old log with exactly the drained entries
(tick ≤ world_ticks) inserted, each past entry having its tick rewritten to
`world_ticks` before insertion. -/
theorem mergeNetworkData_server_no_rewind_rewrites_ticks (w : Int) (q : RewindQueue) :
    (mergeNetworkData true w q).2.1 = false ∧
    (mergeNetworkData true w q).1.m_all_rewind_info =
      insertAll q.m_all_rewind_info
        ((q.m_network_events.filter (fun r => decide (r.ticks ≤ w))).map
          (serverAdjust w)) := by
  have hfun : (fun r : RewindInfo =>
      if true && decide (r.ticks < w) then { r with ticks := w } else r) =
      serverAdjust w := by
    funext r
    simp [serverAdjust]
  unfold mergeNetworkData
  by_cases hnil : q.m_network_events = []
  · rw [if_pos (by simp [hnil]), hnil]
    exact ⟨rfl, rfl⟩
  · rw [if_neg (by simp [hnil])]
    constructor
    · show (mergeStep true w q.m_network_events
          { q with m_network_events := [] } false (-9999)).2.1 = false
      rw [show (mergeStep true w q.m_network_events
          { q with m_network_events := [] } false (-9999)).2 = (false, -9999)
          from mergeStep_server_flags w q.m_network_events _ false (-9999)]
    · show (mergeStep true w q.m_network_events
          { q with m_network_events := [] } false (-9999)).1.m_all_rewind_info =
        insertAll q.m_all_rewind_info
          ((q.m_network_events.filter (fun r => decide (r.ticks ≤ w))).map
            (serverAdjust w))
      rw [mergeStep_log, hfun]

/-- C6: `replayAllEvents t` advances the cursor past exactly the leading run
of records at the cursor whose tick equals `t` (states and events alike),
stopping at the first record with a different tick or at end-of-log, invokes
`rewind()` on exactly the events of that run in order (never on states), and
leaves the log itself unchanged. -/
theorem replayAllEvents_replays_exactly_tick_events (q : RewindQueue) (t : Int) :
    (replayAllEvents q t).1.m_current =
      q.m_current +
        ((q.m_all_rewind_info.drop q.m_current).takeWhile
          (fun r => r.ticks == t)).length ∧
    (replayAllEvents q t).2 =
      (((q.m_all_rewind_info.drop q.m_current).takeWhile
        (fun r => r.ticks == t)).filter RewindInfo.isEvent).map RewindInfo.rid ∧
    (replayAllEvents q t).1.m_all_rewind_info = q.m_all_rewind_info := by
  unfold replayAllEvents
  rw [replayLoop_spec]
  exact ⟨rfl, rfl, rfl⟩

/-- C7: if the cursor is at end-of-log just before an insertion, then just
after it the cursor sits on the newly inserted record: `hasMoreRewindInfo`
becomes true and `getCurrent` resolves to the new record (which sits at the
scanned insertion position). -/
theorem insert_repairs_cursor_at_end (q : RewindQueue) (ri : RewindInfo)
    (h : q.m_current = q.m_all_rewind_info.length) :
    hasMoreRewindInfo (insertRewindInfo q ri) = true ∧
    getCurrent (insertRewindInfo q ri) = some ri ∧
    (insertRewindInfo q ri).m_current = insertPos q.m_all_rewind_info ri := by
  have hle := insertPos_le q.m_all_rewind_info ri
  have hcur : (insertRewindInfo q ri).m_current = insertPos q.m_all_rewind_info ri := by
    simp [insertRewindInfo, h]
  have hlen : (q.m_all_rewind_info.take (insertPos q.m_all_rewind_info ri)).length =
      insertPos q.m_all_rewind_info ri := by
    rw [List.length_take]
    omega
  refine ⟨?_, ?_, hcur⟩
  · show ((insertRewindInfo q ri).m_current !=
      (insertRewindInfo q ri).m_all_rewind_info.length) = true
    rw [hcur, insertRewindInfo_log, insertList_length]
    simp only [bne_iff_ne, ne_eq]
    omega
  · show (insertRewindInfo q ri).m_all_rewind_info[(insertRewindInfo q ri).m_current]? =
      some ri
    rw [hcur, insertRewindInfo_log,
      show insertList q.m_all_rewind_info ri =
        q.m_all_rewind_info.take (insertPos q.m_all_rewind_info ri) ++
          ri :: q.m_all_rewind_info.drop (insertPos q.m_all_rewind_info ri) from rfl,
      List.getElem?_append_right hlen.le]
    simp [hlen]

/-- C7 witness: an empty queue (cursor at end-of-log) receiving an event. -/
theorem insert_repairs_cursor_at_end_witness :
    hasMoreRewindInfo (insertRewindInfo RewindQueue.init
      { kind := RIKind.event, ticks := 2, confirmed := true, rid := 7 }) = true ∧
    getCurrent (insertRewindInfo RewindQueue.init
      { kind := RIKind.event, ticks := 2, confirmed := true, rid := 7 }) =
      some { kind := RIKind.event, ticks := 2, confirmed := true, rid := 7 } ∧
    (insertRewindInfo RewindQueue.init
      { kind := RIKind.event, ticks := 2, confirmed := true, rid := 7 }).m_current =
      insertPos RewindQueue.init.m_all_rewind_info
        { kind := RIKind.event, ticks := 2, confirmed := true, rid := 7 } :=
  insert_repairs_cursor_at_end RewindQueue.init _ rfl

/-- C8: `mergeNetworkData` removes from the inbox exactly the entries with
tick ≤ world_ticks, keeping the future-dated ones in their order; if every
inbox entry is future-dated, the main log is left unchanged and the inbox is
left as it was (in particular non-empty if it was non-empty). -/
theorem mergeNetworkData_drains_past_keeps_future (s : Bool) (w : Int) (q : RewindQueue) :
    (mergeNetworkData s w q).1.m_network_events =
      q.m_network_events.filter (fun r => decide (w < r.ticks)) ∧
    ((∀ r ∈ q.m_network_events, w < r.ticks) →
      (mergeNetworkData s w q).1.m_all_rewind_info = q.m_all_rewind_info ∧
      (mergeNetworkData s w q).1.m_network_events = q.m_network_events ∧
      (q.m_network_events ≠ [] → (mergeNetworkData s w q).1.m_network_events ≠ [])) := by
  have hinbox : (mergeNetworkData s w q).1.m_network_events =
      q.m_network_events.filter (fun r => decide (w < r.ticks)) := by
    unfold mergeNetworkData
    by_cases hnil : q.m_network_events = []
    · rw [if_pos (by simp [hnil]), hnil]
      rfl
    · rw [if_neg (by simp [hnil])]
      show (mergeStep s w q.m_network_events
          { q with m_network_events := [] } false (-9999)).1.m_network_events = _
      rw [mergeStep_inbox]
      simp
  refine ⟨hinbox, ?_⟩
  intro hall
  have hfilterall : q.m_network_events.filter (fun r => decide (w < r.ticks)) =
      q.m_network_events := by
    rw [List.filter_eq_self]
    intro a ha
    simp [hall a ha]
  have hlog : (mergeNetworkData s w q).1.m_all_rewind_info = q.m_all_rewind_info := by
    unfold mergeNetworkData
    by_cases hnil : q.m_network_events = []
    · rw [if_pos (by simp [hnil])]
    · rw [if_neg (by simp [hnil])]
      show (mergeStep s w q.m_network_events
          { q with m_network_events := [] } false (-9999)).1.m_all_rewind_info = _
      rw [mergeStep_log]
      have hfil0 : q.m_network_events.filter (fun r => decide (r.ticks ≤ w)) = [] := by
        rw [List.filter_eq_nil_iff]
        intro a ha
        have hgt := hall a ha
        simp
        omega
      rw [hfil0]
      rfl
  refine ⟨hlog, ?_, ?_⟩
  · rw [hinbox, hfilterall]
  · intro hne
    rw [hinbox, hfilterall]
    exact hne

def qc8w : RewindQueue :=
  ⟨[], 0, [{ kind := RIKind.event, ticks := 20, confirmed := true, rid := 0 }]⟩

/-- C8 witness: an inbox holding only a future-dated record at tick 20 with
`world_ticks = 10`: the log is unchanged and the inbox stays non-empty. -/
theorem mergeNetworkData_keeps_future_witness :
    (mergeNetworkData false 10 qc8w).1.m_all_rewind_info = qc8w.m_all_rewind_info ∧
    (mergeNetworkData false 10 qc8w).1.m_network_events = qc8w.m_network_events ∧
    (qc8w.m_network_events ≠ [] →
      (mergeNetworkData false 10 qc8w).1.m_network_events ≠ []) :=
  (mergeNetworkData_drains_past_keeps_future false 10 qc8w).2 (by decide)

/-- C10: `isEmpty` and `hasMoreRewindInfo` are exact complements, both
determined solely by whether the cursor sits at end-of-log; in particular a
freshly reset queue and a queue whose single record has been consumed (cursor
advanced past a non-empty log) are both reported empty. -/
theorem isEmpty_agrees_with_hasMoreRewindInfo (q : RewindQueue) :
    isEmpty q = !hasMoreRewindInfo q ∧
    isEmpty q = decide (q.m_current = q.m_all_rewind_info.length) ∧
    isEmpty RewindQueue.init = true ∧
    isEmpty ⟨[{ kind := RIKind.event, ticks := 0, confirmed := true, rid := 0 }],
      1, []⟩ = true := by
  refine ⟨?_, ?_, rfl, rfl⟩
  · show (q.m_current == q.m_all_rewind_info.length) =
      !(q.m_current != q.m_all_rewind_info.length)
    rw [bne, Bool.not_not]
  · show (q.m_current == q.m_all_rewind_info.length) =
      decide (q.m_current = q.m_all_rewind_info.length)
    by_cases h : q.m_current = q.m_all_rewind_info.length <;> simp [h]
